import Mathlib

/-!
# Verification of `unstructured/ingest/cli/interfaces.py`

Shallow embedding of the CLI configuration glue of the ingestion tool:
the custom option parsers (`FileOrJson`, `DelimitedString`), the
option-registration mixin (`CliMixin.add_params`) and the per-concern
`from_dict` reconciliation methods (`CliRetryStrategyConfig`,
`CliEmbeddingConfig`, `CliChunkingConfig`, `CliPermissionsConfig`).

Python's flat flag mapping (a `dict`) is modelled as an association list
from keys (lists of characters, so that slicing such as `k[len("chunk_"):]`
is ordinary list arithmetic) to a small universe of Python values.  `dict`
lookup (`kvs.get(k)`, returning `None` when absent) is first-match lookup;
real dicts have pairwise-distinct keys, which theorems assume where it
matters.  Truthiness mirrors Python: `None`, `False`, `0` and `""` are
falsy, everything else truthy.
-/

set_option maxHeartbeats 1000000

/-- A Python value as it occurs in the flag mappings handled by this file:
`None`, booleans, integers and strings. -/
inductive Value where
  | vnone : Value
  | vbool : Bool → Value
  | vint : Int → Value
  | vstr : String → Value
  deriving DecidableEq, Repr

/-- Python truthiness of a `Value` (`bool(v)`). -/
def Value.truthy : Value → Bool
  | .vnone => false
  | .vbool b => b
  | .vint n => n != 0
  | .vstr s => s != ""

/-- A dictionary key: a Python string, as a list of characters. -/
abbrev Key := List Char

/-- A Python `dict` of flag values, as an association list. -/
abbrev PyDict := List (Key × Value)

/-- First-match association-list lookup; models `dict` access on a dict
(whose keys are pairwise distinct). -/
def dlook (k : Key) : PyDict → Option Value
  | [] => none
  | p :: rest => if p.1 = k then some p.2 else dlook k rest

/-- `kvs.get(k)`: lookup defaulting to `None` when the key is absent. -/
def dget (k : Key) (kvs : PyDict) : Value :=
  (dlook k kvs).getD .vnone

/-- `k in kvs`. -/
def containsKey (k : Key) (kvs : PyDict) : Bool :=
  (dlook k kvs).isSome

/-- `s.startswith(pre)` on character lists. -/
def startsWith : Key → Key → Bool
  | [], _ => true
  | _ :: _, [] => false
  | a :: as, b :: bs => if a = b then startsWith as bs else false

/-- `kvs.pop(k, None)` leaves the mapping without key `k`. -/
def removeKey (k : Key) (kvs : PyDict) : PyDict :=
  kvs.filter (fun p => !(p.1 = k : Bool))

/-- The dict comprehension
`{k[len(pre):]: v for k, v in kvs.items() if k.startswith(pre)}`:
keep the entries whose key carries the prefix `pre` and strip that prefix.
(For a real dict — distinct keys — stripping a fixed prefix keeps the keys
distinct, so the comprehension is exactly this filter-and-rename.) -/
def stripFiltered (pre : Key) (kvs : PyDict) : PyDict :=
  (kvs.filter (fun p => startsWith pre p.1)).map (fun p => (p.1.drop pre.length, p.2))

/-- One step of Python `dict(pairs)` construction: insert a pair, updating
in place when the key is already present (later value wins, first position
kept). -/
def insertPair (d : PyDict) (p : Key × Value) : PyDict :=
  match d with
  | [] => [p]
  | q :: rest => if q.1 = p.1 then (q.1, p.2) :: rest else q :: insertPair rest p

/-- Python `dict(pairs)`: fold the pairs into an initially empty dict. -/
def pyDict (ps : List (Key × Value)) : PyDict :=
  ps.foldl insertPair []

/-! ## `CliRetryStrategyConfig.from_dict`

`fields(cls)` enumerates the dataclass fields of `RetryStrategyConfig`,
which is defined in `unstructured.ingest.interfaces` (not part of the
sources here). -/

/-- Modelled from the spec: the record built by the dataclass
`from_dict` of `RetryStrategyConfig` (defined in
`unstructured.ingest.interfaces`, which is not among the sources): §3 of
the spec gives it an optional max-retry count and an optional
max-retry-duration, bound to the flags `--max-retries` and
`--max-retry-time` (fields `max_retries` / `max_retry_time`). -/
structure RetryStrategyConfig where
  max_retries : Value
  max_retry_time : Value
  deriving DecidableEq, Repr

/-- Modelled from the spec: the dataclass field names of
`RetryStrategyConfig` (its definition is not among the sources). -/
def retryFieldNames : List Key :=
  ["max_retries".toList, "max_retry_time".toList]

/-- `CliRetryStrategyConfig.from_dict(kvs)` for dict input: collect the
truthy values of the dataclass fields present in `kvs`; when there is
none, return `None`, otherwise build the record from `kvs` itself. -/
def CliRetryStrategyConfig.from_dict (kvs : PyDict) : Option RetryStrategyConfig :=
  let field_names := retryFieldNames.filter (fun n => containsKey n kvs)
  let field_values := (field_names.map (fun n => dget n kvs)).filter Value.truthy
  if field_values.length = 0 then none
  else some ⟨dget ("max_retries".toList) kvs, dget ("max_retry_time".toList) kvs⟩

/-! ## `CliEmbeddingConfig.from_dict` -/

/-- Modelled from the spec: the record built by the dataclass `from_dict`
of `EmbeddingConfig` (defined in `unstructured.ingest.interfaces`, not
among the sources): provider name, optional API key, model name and AWS
credential triple, the region defaulting to `us-west-2` (spec §3 and §6). -/
structure EmbeddingConfig where
  provider : Value
  api_key : Value
  model_name : Value
  aws_access_key_id : Value
  aws_secret_access_key : Value
  aws_region : Value
  deriving DecidableEq, Repr

/-- Modelled from the spec: populate each `EmbeddingConfig` field from the
(prefix-stripped) mapping, defaulting the absent ones (`us-west-2` for the
region, `None` for the rest). -/
def EmbeddingConfig.build (d : PyDict) : EmbeddingConfig :=
  { provider := dget ("provider".toList) d
    api_key := dget ("api_key".toList) d
    model_name := dget ("model_name".toList) d
    aws_access_key_id := dget ("aws_access_key_id".toList) d
    aws_secret_access_key := dget ("aws_secret_access_key".toList) d
    aws_region := (dlook ("aws_region".toList) d).getD (.vstr "us-west-2") }

/-- `CliEmbeddingConfig.from_dict(kvs)` for dict input: strip the
`embedding_` prefix; `None` when no `embedding_`-prefixed key exists or
when the stripped mapping has no truthy `provider`; otherwise the record. -/
def CliEmbeddingConfig.from_dict (kvs : PyDict) : Option EmbeddingConfig :=
  let new_kvs := stripFiltered ("embedding_".toList) kvs
  if new_kvs.length = 0 then none
  else if (dget ("provider".toList) new_kvs).truthy = false then none
  else some (EmbeddingConfig.build new_kvs)

/-! ## `CliChunkingConfig.from_dict`

The merged field set `new_kvs` that the method hands to the dataclass
constructor (`super().from_dict`, outside the sources) is returned
directly: the claims about this method concern only presence/absence and
the values in that merged field set. -/

/-- `CliChunkingConfig.from_dict(kvs)` for dict input: pop the legacy
`chunk_elements` flag and the `chunking_strategy` flag; when neither is
truthy, chunking was not requested (`None`).  Otherwise resolve the
strategy (the newer flag wins, the legacy flag synthesizes `by_title`),
strip the `chunk_` prefix from the remaining flags, and build the merged
field set with Python `dict(...)`; a final defensive check returns `None`
when that set is empty. -/
def CliChunkingConfig.from_dict (kvs : PyDict) : Option PyDict :=
  let chunk_elements := dget ("chunk_elements".toList) kvs
  let chunking_strategy := dget ("chunking_strategy".toList) kvs
  let options := removeKey ("chunking_strategy".toList)
    (removeKey ("chunk_elements".toList) kvs)
  if chunk_elements.truthy = false ∧ chunking_strategy.truthy = false then none
  else
    let strat : List (Key × Value) :=
      if chunking_strategy.truthy then [("chunking_strategy".toList, chunking_strategy)]
      else if chunk_elements.truthy then [("chunking_strategy".toList, .vstr "by_title")]
      else []
    let new_kvs := pyDict (strat ++ stripFiltered ("chunk_".toList) options)
    if new_kvs.length = 0 then none else some new_kvs

/-! ## `CliPermissionsConfig.from_dict` -/

/-- Outcome of `CliPermissionsConfig.from_dict`: a raised `ValueError`, the
absence signal `None`, or a populated record (represented by the
prefix-stripped field set handed to the dataclass constructor). -/
inductive PermResult where
  | perm_error : String → PermResult
  | absent : PermResult
  | record : PyDict → PermResult
  deriving DecidableEq, Repr

/-- The `ValueError` message raised on a partial permissions triple. -/
def permissionsErrorMessage : String :=
  "Please provide either none or all of the following optional values:\n--permissions-application-id\n--permissions-client-cred\n--permissions-tenant"

/-- `CliPermissionsConfig.from_dict(kvs)` for dict input: a partial truthy
triple raises, no `permissions_`-prefixed key yields `None`, otherwise the
prefix-stripped field set populates the record. -/
def CliPermissionsConfig.from_dict (kvs : PyDict) : PermResult :=
  let permission_values := [dget ("permissions_application_id".toList) kvs,
    dget ("permissions_client_cred".toList) kvs,
    dget ("permissions_tenant".toList) kvs]
  if (permission_values.any Value.truthy) ∧ ¬ (permission_values.all Value.truthy) then
    .perm_error permissionsErrorMessage
  else
    let new_kvs := stripFiltered ("permissions_".toList) kvs
    if new_kvs.length = 0 then .absent else .record new_kvs

/-! ## `CliMixin.add_params` -/

/-- A `click.Parameter` as far as registration is concerned: its list of
flag spellings (`param.opts`, e.g. `["-v", "--verbose"]`). -/
structure Param where
  opts : List String
  deriving DecidableEq, Repr

/-- A `click.Command`: its name and its registered parameter list. -/
structure Command where
  name : String
  params : List Param
  deriving DecidableEq, Repr

/-- The accumulation `existing_opts = []; for param in cmd.params:
existing_opts.extend(param.opts)`. -/
def allOpts : List Param → List String
  | [] => []
  | p :: ps => p.opts ++ allOpts ps

/-- The `ValueError` message for a colliding flag spelling. -/
def dupMessage (opt cmdName : String) : String :=
  opt ++ " is already defined on the command " ++ cmdName

/-- The inner loop `for opt in param.opts`: raise on a spelling already in
`existing_opts`, else record the spelling and append the parameter to
`cmd.params` (the append sits inside this inner loop in the source, so it
runs once per spelling). -/
def CliMixin.addOptsLoop (cmdName : String) (prm : Param) :
    List String → List String → List Param → Except String (List String × List Param)
  | [], existing, acc => .ok (existing, acc)
  | opt :: rest, existing, acc =>
    if opt ∈ existing then .error (dupMessage opt cmdName)
    else CliMixin.addOptsLoop cmdName prm rest (existing ++ [opt]) (acc ++ [prm])

/-- The outer loop `for param in params`. -/
def CliMixin.addParamsLoop (cmdName : String) :
    List Param → List String → List Param → Except String (List Param)
  | [], _, acc => .ok acc
  | prm :: rest, existing, acc =>
    match CliMixin.addOptsLoop cmdName prm prm.opts existing acc with
    | .error e => .error e
    | .ok (existing2, acc2) => CliMixin.addParamsLoop cmdName rest existing2 acc2

/-- `CliMixin.add_params(cmd, params)`: on success the command with its
grown parameter list, otherwise the `ValueError` message. -/
def CliMixin.add_params (cmd : Command) (params : List Param) : Except String Command :=
  (CliMixin.addParamsLoop cmd.name params (allOpts cmd.params) cmd.params).map
    (fun ps => { cmd with params := ps })

/-- The new options bring no collision: their spellings are pairwise
distinct and none is already registered. -/
def FreshOpts (existing : List String) (ps : List Param) : Prop :=
  (allOpts ps).Nodup ∧ ∀ o ∈ allOpts ps, o ∉ existing

instance (existing : List String) (ps : List Param) : Decidable (FreshOpts existing ps) :=
  inferInstanceAs (Decidable (_ ∧ _))

/-! ## `FileOrJson.convert`

The filesystem calls (`os.path.expanduser`, `os.path.abspath`,
`os.path.isfile`, `Path.resolve`) and the JSON decoder are ambient
effects; the embedding abstracts them as explicit parameters, so a theorem
quantifying over the JSON decoder states that the decoder is never
consulted. -/

/-- The filesystem operations `FileOrJson.convert` performs. -/
structure FSModel where
  expanduser : String → String
  abspath : String → String
  resolve : String → String
  isfile : String → Bool

/-- A successful conversion: a resolved file path, a parsed JSON value, or
the raw string fallback. -/
inductive ConvResult (α : Type) where
  | path : String → ConvResult α
  | json : α → ConvResult α
  | raw : String → ConvResult α
  deriving DecidableEq, Repr

/-- `FileOrJson.convert(value)`: an existing file wins and is returned
resolved; otherwise try JSON; otherwise the raw string when allowed, else
fail with the `InvalidValue` message. -/
def FileOrJson.convert {α : Type} (allow_raw_str : Bool) (fs : FSModel)
    (jsonParse : String → Option α) (value : String) : Except String (ConvResult α) :=
  let full_path := fs.abspath (fs.expanduser value)
  if fs.isfile full_path then .ok (.path (fs.resolve full_path))
  else
    match jsonParse value with
    | some j => .ok (.json j)
    | none =>
      if allow_raw_str then .ok (.raw value)
      else .error (value ++ " is not a valid json string nor an existing filepath.")

/-! ## `DelimitedString.convert`

Python strings are lists of characters here, so that `str.split`,
`str.strip` and `str.join` are list operations. -/

/-- Python `str.strip`'s whitespace test (the ASCII whitespace class). -/
def pySpace (c : Char) : Bool :=
  c = ' ' || c = '\t' || c = '\n' || c = '\r' || c = '\x0b' || c = '\x0c'

/-- Left half of `str.strip`. -/
def lstrip (l : List Char) : List Char := l.dropWhile pySpace

/-- Right half of `str.strip`. -/
def rstrip (l : List Char) : List Char := (l.reverse.dropWhile pySpace).reverse

/-- Python `s.strip()`. -/
def pyStrip (l : List Char) : List Char := rstrip (lstrip l)

/-- Fuelled worker for Python `s.split(sep)` with non-empty `sep`:
leftmost, non-overlapping matches, keeping empty pieces.  The fuel only
serves structural recursion; `pySplit` supplies enough for it never to run
out. -/
def splitParts (d : List Char) : Nat → List Char → List (List Char)
  | 0, _ => []
  | _ + 1, [] => [[]]
  | n + 1, c :: rest =>
    if startsWith d (c :: rest) then
      [] :: splitParts d n (rest.drop (d.length - 1))
    else
      match splitParts d n rest with
      | [] => [[c]]
      | p :: ps => (c :: p) :: ps

/-- Python `s.split(sep)` for non-empty `sep`. -/
def pySplit (d s : List Char) : List (List Char) :=
  splitParts d (s.length + 1) s

/-- Python `repr` of a string (quoting; escaping inside the string is not
needed for the values this file handles). -/
def pyRepr (s : List Char) : List Char :=
  (Char.ofNat 39) :: s ++ [Char.ofNat 39]

/-- The `InvalidValue` message for a value outside the choice set, after
`ngettext(...).format(...)`: singular wording for a single choice, plural
wording otherwise, with the `repr`-quoted choices joined by `", "`. -/
def choiceErrorMessage (s : List Char) (choices : List (List Char)) : List Char :=
  let choices_str := List.intercalate (", ".toList) (choices.map pyRepr)
  if choices.length = 1 then
    pyRepr s ++ (" is not ".toList) ++ choices_str ++ [Char.ofNat 46]
  else
    pyRepr s ++ (" is not one of ".toList) ++ choices_str ++ [Char.ofNat 46]

/-- `DelimitedString.convert(value)` for a string value: split on the
configured delimiter (Python raises on an empty separator), strip each
piece, and when a choice set is configured fail on the first piece outside
it.  `self.choices` is empty when no choice set was configured. -/
def DelimitedString.convert (delimiter : List Char) (choices : List (List Char))
    (value : List Char) : Except (List Char) (List (List Char)) :=
  if delimiter.length = 0 then .error ("empty separator".toList)
  else
    let split := (pySplit delimiter value).map pyStrip
    if choices.length = 0 then .ok split
    else
      match split.find? (fun s => !(choices.contains s)) with
      | some s => .error (choiceErrorMessage s choices)
      | none => .ok split

/-! ## Helper lemmas on the dictionary model -/

theorem startsWith_iff : ∀ {pre s : Key}, startsWith pre s = true ↔ ∃ t, s = pre ++ t := by
  intro pre
  induction pre with
  | nil => intro s; simp [startsWith]
  | cons a as ih =>
    intro s
    cases s with
    | nil =>
      constructor
      · intro h; exact absurd h (by simp [startsWith])
      · rintro ⟨t, ht⟩; exact List.noConfusion ht
    | cons b bs =>
      simp only [startsWith, List.cons_append]
      by_cases hab : a = b
      · subst hab
        rw [if_pos rfl, ih]
        constructor
        · rintro ⟨t, rfl⟩; exact ⟨t, rfl⟩
        · rintro ⟨t, ht⟩
          injection ht with _ h2
          exact ⟨t, h2⟩
      · rw [if_neg hab]
        constructor
        · intro h; exact absurd h (by simp)
        · rintro ⟨t, ht⟩
          injection ht with h1 _
          exact absurd h1.symm hab

theorem startsWith_append_self (pre t : Key) : startsWith pre (pre ++ t) = true :=
  startsWith_iff.mpr ⟨t, rfl⟩

theorem startsWith_decomp {pre s : Key} (h : startsWith pre s = true) :
    pre ++ s.drop pre.length = s := by
  obtain ⟨t, rfl⟩ := startsWith_iff.mp h
  rw [List.drop_left]

theorem dlook_eq_some_mem {k : Key} {v : Value} : ∀ {l : PyDict}, dlook k l = some v → (k, v) ∈ l := by
  intro l
  induction l with
  | nil => intro h; simp [dlook] at h
  | cons p rest ih =>
    obtain ⟨p1, p2⟩ := p
    intro h
    simp only [dlook] at h
    by_cases hp : p1 = k
    · subst hp
      rw [if_pos rfl] at h
      injection h with h2
      subst h2
      exact List.mem_cons_self _ _
    · rw [if_neg hp] at h
      exact List.mem_cons_of_mem _ (ih h)

theorem dlook_eq_none_of_forall {k : Key} : ∀ {l : PyDict}, (∀ p ∈ l, p.1 ≠ k) → dlook k l = none := by
  intro l
  induction l with
  | nil => simp [dlook]
  | cons p rest ih =>
    intro h
    simp only [dlook, if_neg (h p (.head _))]
    exact ih fun q hq => h q (.tail _ hq)

theorem dlook_mem_nodup {k : Key} {v : Value} :
    ∀ {l : PyDict}, (l.map Prod.fst).Nodup → (k, v) ∈ l → dlook k l = some v := by
  intro l
  induction l with
  | nil => simp
  | cons p rest ih =>
    intro hnd hm
    simp only [List.map_cons, List.nodup_cons] at hnd
    rcases List.mem_cons.mp hm with h | h
    · subst h; simp [dlook]
    · have hne : p.1 ≠ k := by
        intro he
        exact hnd.1 (he ▸ List.mem_map_of_mem Prod.fst h)
      simp only [dlook, if_neg hne]
      exact ih hnd.2 h

theorem dlook_append_some {k : Key} {v : Value} {l₁ l₂ : PyDict}
    (h : dlook k l₁ = some v) : dlook k (l₁ ++ l₂) = some v := by
  induction l₁ with
  | nil => simp [dlook] at h
  | cons p rest ih =>
    simp only [dlook, List.cons_append] at h ⊢
    by_cases hp : p.1 = k
    · simpa [hp] using h
    · simp only [if_neg hp] at h ⊢
      exact ih h

theorem dlook_append_none {k : Key} {l₁ l₂ : PyDict}
    (h : dlook k l₁ = none) : dlook k (l₁ ++ l₂) = dlook k l₂ := by
  induction l₁ with
  | nil => simp
  | cons p rest ih =>
    simp only [dlook, List.cons_append] at h ⊢
    by_cases hp : p.1 = k
    · simp [hp] at h
    · simp only [if_neg hp] at h ⊢
      exact ih h

theorem dget_of_dlook_none {k : Key} {kvs : PyDict} (h : dlook k kvs = none) :
    dget k kvs = .vnone := by
  simp [dget, h]

theorem dget_of_not_containsKey {k : Key} {kvs : PyDict} (h : containsKey k kvs = false) :
    dget k kvs = .vnone := by
  unfold containsKey at h
  cases hl : dlook k kvs with
  | none => exact dget_of_dlook_none hl
  | some v => rw [hl] at h; simp at h

theorem truthy_dget {k : Key} {kvs : PyDict} (h : (dget k kvs).truthy = true) :
    ∃ v, dlook k kvs = some v ∧ v.truthy = true := by
  cases hl : dlook k kvs with
  | none => rw [dget_of_dlook_none hl] at h; simp [Value.truthy] at h
  | some v => exact ⟨v, rfl, by simpa [dget, hl] using h⟩

theorem mem_stripFiltered (pre : Key) {k : Key} {v : Value} {kvs : PyDict}
    (hm : (k, v) ∈ kvs) (hp : startsWith pre k = true) :
    (k.drop pre.length, v) ∈ stripFiltered pre kvs := by
  unfold stripFiltered
  exact List.mem_map_of_mem _ (List.mem_filter.mpr ⟨hm, hp⟩)

theorem dlook_stripFiltered (pre tgt : Key) :
    ∀ kvs : PyDict, dlook tgt (stripFiltered pre kvs) = dlook (pre ++ tgt) kvs := by
  intro kvs
  induction kvs with
  | nil => simp [stripFiltered, dlook]
  | cons p rest ih =>
    by_cases hp : startsWith pre p.1 = true
    · have hdecomp := startsWith_decomp hp
      simp only [stripFiltered, List.filter_cons, hp, if_pos, List.map_cons] at *
      simp only [dlook]
      by_cases he : p.1.drop pre.length = tgt
      · have : p.1 = pre ++ tgt := by rw [← he, hdecomp]
        simp [he, this, ih]
      · have : ¬ (p.1 = pre ++ tgt) := by
          intro hc
          exact he (by rw [hc, List.drop_left])
        simp only [if_neg he, if_neg this]
        exact ih
    · have : ¬ (p.1 = pre ++ tgt) := by
        intro hc
        exact hp (hc ▸ startsWith_append_self pre tgt)
      simp only [stripFiltered, List.filter_cons, hp] at *
      simp only [dlook, if_neg this]
      exact ih

theorem insertPair_ne_nil (d : PyDict) (p : Key × Value) : insertPair d p ≠ [] := by
  cases d with
  | nil => simp [insertPair]
  | cons q rest =>
    simp only [insertPair]
    by_cases h : q.1 = p.1 <;> simp [h]

theorem foldl_insertPair_ne_nil : ∀ (ps : List (Key × Value)) (acc : PyDict),
    acc ≠ [] → ps.foldl insertPair acc ≠ [] := by
  intro ps
  induction ps with
  | nil => intro acc h; simpa using h
  | cons p rest ih =>
    intro acc _
    simp only [List.foldl_cons]
    exact ih _ (insertPair_ne_nil acc p)

theorem pyDict_ne_nil {ps : List (Key × Value)} (h : ps ≠ []) : pyDict ps ≠ [] := by
  cases ps with
  | nil => exact absurd rfl h
  | cons p rest =>
    simp only [pyDict, List.foldl_cons]
    exact foldl_insertPair_ne_nil rest _ (insertPair_ne_nil [] p)

theorem insertPair_of_not_mem {d : PyDict} {p : Key × Value}
    (h : p.1 ∉ d.map Prod.fst) : insertPair d p = d ++ [p] := by
  induction d with
  | nil => simp [insertPair]
  | cons q rest ih =>
    simp only [List.map_cons, List.mem_cons, not_or] at h
    simp only [insertPair, if_neg (Ne.symm h.1), List.cons_append]
    rw [ih h.2]

theorem foldl_insertPair_nodup : ∀ (ps : List (Key × Value)) (acc : PyDict),
    ((acc ++ ps).map Prod.fst).Nodup → ps.foldl insertPair acc = acc ++ ps := by
  intro ps
  induction ps with
  | nil => intro acc _; simp
  | cons p rest ih =>
    intro acc h
    have h' : (acc.map Prod.fst ++ p.1 :: rest.map Prod.fst).Nodup := by
      simpa using h
    have hnotin : p.1 ∉ acc.map Prod.fst := by
      rcases List.nodup_append.mp h' with ⟨-, -, hdisj⟩
      intro hc
      exact hdisj hc (List.mem_cons_self _ _)
    rw [List.foldl_cons, insertPair_of_not_mem hnotin,
      ih (acc ++ [p]) (by simpa using h), List.append_assoc]
    rfl

theorem pyDict_nodup_id {ps : List (Key × Value)} (h : (ps.map Prod.fst).Nodup) :
    pyDict ps = ps :=
  foldl_insertPair_nodup ps [] (by simpa using h)

/-! ## Claims -/

/-- C1: Chunking reconciliation: for every flag mapping in which both the
legacy boolean flag `chunk_elements` and the strategy flag
`chunking_strategy` are unset (absent or falsy), `CliChunkingConfig.from_dict`
returns the absence signal `None`, even when `chunk_`-prefixed tuning flags
such as `chunk_max_characters` are present: tuning flags alone never enable
chunking. -/
theorem chunking_absent_when_no_strategy (kvs : PyDict)
    (hce : (dget ("chunk_elements".toList) kvs).truthy = false)
    (hcs : (dget ("chunking_strategy".toList) kvs).truthy = false) :
    CliChunkingConfig.from_dict kvs = none := by
  simp only [CliChunkingConfig.from_dict]
  rw [if_pos ⟨hce, hcs⟩]

/-- Witness for C1: `{chunk_max_characters: 500}` alone (a tuning flag, no
strategy or legacy flag) yields the absence signal. -/
theorem chunking_absent_when_no_strategy_witness :
    (dget ("chunk_elements".toList)
        [(("chunk_max_characters".toList : Key), Value.vint 500)]).truthy = false ∧
    CliChunkingConfig.from_dict
        [(("chunk_max_characters".toList : Key), Value.vint 500)] = none :=
  ⟨by decide, chunking_absent_when_no_strategy _ (by decide) (by decide)⟩

theorem chunking_some_of_flag (kvs : PyDict)
    (h : ¬((dget ("chunk_elements".toList) kvs).truthy = false ∧
           (dget ("chunking_strategy".toList) kvs).truthy = false)) :
    ∃ d, CliChunkingConfig.from_dict kvs = some d := by
  simp only [CliChunkingConfig.from_dict]
  rw [if_neg h]
  have hne : ∀ (strat : List (Key × Value)) (rest : PyDict), strat ≠ [] →
      ∃ d, (if (pyDict (strat ++ rest)).length = 0 then none
            else some (pyDict (strat ++ rest))) = some d := by
    intro strat rest hs
    have hlen : ¬((pyDict (strat ++ rest)).length = 0) := by
      rw [List.length_eq_zero]
      exact pyDict_ne_nil (fun hq2 => hs (List.append_eq_nil.mp hq2).1)
    rw [if_neg hlen]
    exact ⟨_, rfl⟩
  by_cases hcs : (dget ("chunking_strategy".toList) kvs).truthy
  · rw [if_pos hcs]
    exact hne _ _ (by simp)
  · have hce : (dget ("chunk_elements".toList) kvs).truthy = true := by
      rcases Bool.eq_false_or_eq_true (dget ("chunk_elements".toList) kvs).truthy with h1 | h1
      · exact h1
      · exact absurd ⟨h1, by simpa using hcs⟩ h
    rw [if_neg hcs, if_pos hce]
    exact hne _ _ (by simp)

/-- C10: for dict inputs, `CliChunkingConfig.from_dict` returns `None` if
and only if both `chunk_elements` and `chunking_strategy` are unset: past
the early neither-flag-set return, the merged field set always contains a
`chunking_strategy` entry and is non-empty, so the final defensive branch
returning `None` for an empty merged set is unreachable. -/
theorem chunking_none_iff_flags_unset (kvs : PyDict) :
    CliChunkingConfig.from_dict kvs = none ↔
      ((dget ("chunk_elements".toList) kvs).truthy = false ∧
       (dget ("chunking_strategy".toList) kvs).truthy = false) := by
  constructor
  · intro h
    by_contra hc
    obtain ⟨d, hd⟩ := chunking_some_of_flag kvs hc
    rw [hd] at h
    exact Option.noConfusion h
  · intro hand
    simp only [CliChunkingConfig.from_dict]
    rw [if_pos hand]

/-- C7 counterexample: the claim says a mapping that sets a retry field to
an explicit value *including 0* yields a populated record; but the code
filters field values by truthiness, so `{max_retries: 0}` yields `None`. -/
theorem retry_zero_counterexample :
    CliRetryStrategyConfig.from_dict [(("max_retries".toList : Key), Value.vint 0)] = none := by
  decide

/-- C7 (amended): `CliRetryStrategyConfig.from_dict` returns a populated
record exactly when at least one of `max_retries` / `max_retry_time` is set
to a *truthy* value in the mapping; a field set to a falsy explicit value
such as `0` or `0.0` does not count as set, and when neither field is set
to a truthy value the result is `None`. -/
theorem retry_present_iff_truthy_field (kvs : PyDict) :
    (CliRetryStrategyConfig.from_dict kvs).isSome =
      ((dget ("max_retries".toList) kvs).truthy ||
       (dget ("max_retry_time".toList) kvs).truthy) := by
  have hc1 : containsKey ("max_retries".toList) kvs = false →
      (dget ("max_retries".toList) kvs).truthy = false := fun h => by
    rw [dget_of_not_containsKey h]; rfl
  have hc2 : containsKey ("max_retry_time".toList) kvs = false →
      (dget ("max_retry_time".toList) kvs).truthy = false := fun h => by
    rw [dget_of_not_containsKey h]; rfl
  simp only [CliRetryStrategyConfig.from_dict, retryFieldNames]
  by_cases h1 : containsKey ("max_retries".toList) kvs <;>
    by_cases h2 : containsKey ("max_retry_time".toList) kvs
  · by_cases ht1 : (dget ("max_retries".toList) kvs).truthy <;>
      by_cases ht2 : (dget ("max_retry_time".toList) kvs).truthy <;>
        simp_all
  · have hv2 : (dget ("max_retry_time".toList) kvs).truthy = false := hc2 (by simpa using h2)
    by_cases ht1 : (dget ("max_retries".toList) kvs).truthy <;> simp_all
  · have hv1 : (dget ("max_retries".toList) kvs).truthy = false := hc1 (by simpa using h1)
    by_cases ht2 : (dget ("max_retry_time".toList) kvs).truthy <;> simp_all
  · have hv1 : (dget ("max_retries".toList) kvs).truthy = false := hc1 (by simpa using h1)
    have hv2 : (dget ("max_retry_time".toList) kvs).truthy = false := hc2 (by simpa using h2)
    simp_all

/-- C5 (code bug): the claim (and spec §4.2) say each option is appended to
the command's parameter list exactly once, regardless of how many flag
spellings it has; but `cmd.params.append(param)` sits inside the inner loop
over the option's spellings, so an option such as `-v` / `--verbose` with
two spellings is appended twice. -/
theorem add_params_appends_once_per_spelling :
    CliMixin.add_params ⟨"ingest", []⟩ [⟨["-v", "--verbose"]⟩] =
      .ok ⟨"ingest", [⟨["-v", "--verbose"]⟩, ⟨["-v", "--verbose"]⟩]⟩ ∧
    (⟨"ingest", [⟨["-v", "--verbose"]⟩, ⟨["-v", "--verbose"]⟩]⟩ : Command) ≠
      ⟨"ingest", [⟨["-v", "--verbose"]⟩]⟩ := by
  constructor
  · rfl
  · decide

/-- C8: `FileOrJson.convert` on an input that (after user-expansion and
absolutization) names an existing file returns the resolved absolute path
and never consults the JSON decoder: the outcome is the resolved path for
*every* decoder. -/
theorem file_or_json_existing_file {α : Type} (allow : Bool) (fs : FSModel)
    (jp jp2 : String → Option α) (v : String)
    (h : fs.isfile (fs.abspath (fs.expanduser v)) = true) :
    FileOrJson.convert allow fs jp v =
      .ok (.path (fs.resolve (fs.abspath (fs.expanduser v)))) ∧
    FileOrJson.convert allow fs jp v = FileOrJson.convert allow fs jp2 v := by
  constructor <;> simp [FileOrJson.convert, h]

/-- Witness for C8: a concrete filesystem on which `/home/user/config.json`
exists; conversion returns the path even though one decoder answers `none`
and the other `some 0`. -/
theorem file_or_json_existing_file_witness :
    FileOrJson.convert true ⟨id, id, id, fun s => s = "/home/user/config.json"⟩
        (fun _ => (none : Option Nat)) "/home/user/config.json" =
      .ok (.path "/home/user/config.json") ∧
    FileOrJson.convert true ⟨id, id, id, fun s => s = "/home/user/config.json"⟩
        (fun _ => (none : Option Nat)) "/home/user/config.json" =
      FileOrJson.convert true ⟨id, id, id, fun s => s = "/home/user/config.json"⟩
        (fun _ => (some 0 : Option Nat)) "/home/user/config.json" :=
  file_or_json_existing_file true ⟨id, id, id, fun s => s = "/home/user/config.json"⟩
    (fun _ => none) (fun _ => some 0) "/home/user/config.json" (by decide)

/-- C3: permissions reconciliation: a truthy-partial triple (some but not
all of application id / client credential / tenant truthy) raises the
`ValueError` whose message enumerates the three `--permissions-*` flags;
all three truthy yields a populated record; no `permissions_`-prefixed key
at all yields the absence signal `None`. -/
theorem permissions_triple_reconciliation (kvs : PyDict) :
    ((((dget ("permissions_application_id".toList) kvs).truthy ||
       ((dget ("permissions_client_cred".toList) kvs).truthy ||
        (dget ("permissions_tenant".toList) kvs).truthy)) = true) →
     (((dget ("permissions_application_id".toList) kvs).truthy &&
       ((dget ("permissions_client_cred".toList) kvs).truthy &&
        (dget ("permissions_tenant".toList) kvs).truthy)) = false) →
     CliPermissionsConfig.from_dict kvs = .perm_error permissionsErrorMessage) ∧
    ((((dget ("permissions_application_id".toList) kvs).truthy &&
       ((dget ("permissions_client_cred".toList) kvs).truthy &&
        (dget ("permissions_tenant".toList) kvs).truthy)) = true) →
     ∃ d, CliPermissionsConfig.from_dict kvs = .record d) ∧
    ((∀ p ∈ kvs, startsWith ("permissions_".toList) p.1 = false) →
     CliPermissionsConfig.from_dict kvs = .absent) := by
  refine ⟨?_, ?_, ?_⟩
  · intro hany hnall
    simp only [CliPermissionsConfig.from_dict]
    rw [if_pos]
    constructor
    · simpa using hany
    · simpa using hnall
  · intro hall
    simp only [Bool.and_eq_true] at hall
    obtain ⟨ha, hb, hc⟩ := hall
    simp only [CliPermissionsConfig.from_dict]
    rw [if_neg (fun hcond => hcond.2 (by
      simp only [List.all_cons, List.all_nil, Bool.and_true]
      rw [ha, hb, hc]
      rfl))]
    obtain ⟨v, hv, -⟩ := truthy_dget ha
    have hmem := mem_stripFiltered ("permissions_".toList)
      (dlook_eq_some_mem hv) (by decide)
    have hne : ¬ ((stripFiltered ("permissions_".toList) kvs).length = 0) := fun hq =>
      List.ne_nil_of_mem hmem (List.length_eq_zero.mp hq)
    rw [if_neg hne]
    exact ⟨_, rfl⟩
  · intro hnone
    have hlk : ∀ k : Key, startsWith ("permissions_".toList) k = true →
        dget k kvs = .vnone := by
      intro k hk
      refine dget_of_dlook_none (dlook_eq_none_of_forall ?_)
      intro p hp he
      have hfalse := hnone p hp
      rw [he] at hfalse
      rw [hk] at hfalse
      exact Bool.noConfusion hfalse
    simp only [CliPermissionsConfig.from_dict]
    rw [if_neg]
    · have hfil : stripFiltered ("permissions_".toList) kvs = [] := by
        unfold stripFiltered
        have hf : kvs.filter (fun p => startsWith ("permissions_".toList) p.1) = [] := by
          rw [List.filter_eq_nil_iff]
          intro a ha h
          rw [hnone a ha] at h
          exact Bool.noConfusion h
        rw [hf, List.map_nil]
      rw [hfil]
      rfl
    · rw [hlk _ (by decide), hlk _ (by decide), hlk _ (by decide)]
      simp [Value.truthy]

/-- Witness for C3: a lone application id raises the enumerating error; the
full triple yields a record; the empty mapping yields absence. -/
theorem permissions_triple_reconciliation_witness :
    CliPermissionsConfig.from_dict
        [(("permissions_application_id".toList : Key), Value.vstr "app-id")] =
      .perm_error permissionsErrorMessage ∧
    (∃ d, CliPermissionsConfig.from_dict
        [(("permissions_application_id".toList : Key), Value.vstr "app-id"),
         (("permissions_client_cred".toList : Key), Value.vstr "cred"),
         (("permissions_tenant".toList : Key), Value.vstr "tenant")] = .record d) ∧
    CliPermissionsConfig.from_dict [] = .absent :=
  ⟨(permissions_triple_reconciliation _).1 (by decide) (by decide),
   (permissions_triple_reconciliation _).2.1 (by decide),
   (permissions_triple_reconciliation _).2.2 (by decide)⟩

/-- C6: embedding reconciliation: `CliEmbeddingConfig.from_dict` yields a
populated record exactly when the `embedding_provider` key is set (truthy)
in the flag mapping — an API key alone does not activate embedding — and
when only the provider is supplied the remaining fields take their
defaults (`None`, region `us-west-2`), the `embedding_` prefix having been
stripped from each key. -/
theorem embedding_active_iff_provider (kvs : PyDict) :
    ((CliEmbeddingConfig.from_dict kvs).isSome =
      (dget ("embedding_provider".toList) kvs).truthy) ∧
    ((dget ("embedding_provider".toList) kvs).truthy = true →
     (∀ p ∈ kvs, startsWith ("embedding_".toList) p.1 = true →
        p.1 = "embedding_provider".toList) →
     CliEmbeddingConfig.from_dict kvs =
       some ⟨dget ("embedding_provider".toList) kvs, .vnone, .vnone, .vnone, .vnone,
         .vstr "us-west-2"⟩) := by
  have hkey : ("embedding_".toList ++ "provider".toList : Key) = "embedding_provider".toList := by
    decide
  have hp : dget ("provider".toList) (stripFiltered ("embedding_".toList) kvs) =
      dget ("embedding_provider".toList) kvs := by
    unfold dget
    rw [dlook_stripFiltered, hkey]
  constructor
  · cases htr : (dget ("embedding_provider".toList) kvs).truthy with
    | true =>
      obtain ⟨v, hv, -⟩ := truthy_dget htr
      have hmem := mem_stripFiltered ("embedding_".toList)
        (dlook_eq_some_mem hv) (by decide)
      have hlen : ¬ ((stripFiltered ("embedding_".toList) kvs).length = 0) := fun hq =>
        List.ne_nil_of_mem hmem (List.length_eq_zero.mp hq)
      simp only [CliEmbeddingConfig.from_dict]
      rw [if_neg hlen, if_neg (by rw [hp, htr]; simp)]
      rfl
    | false =>
      simp only [CliEmbeddingConfig.from_dict]
      by_cases hlen : (stripFiltered ("embedding_".toList) kvs).length = 0
      · rw [if_pos hlen]
        rfl
      · rw [if_neg hlen, if_pos (by rw [hp, htr])]
        rfl
  · intro htr honly
    obtain ⟨v, hv, -⟩ := truthy_dget htr
    have hmem := mem_stripFiltered ("embedding_".toList)
      (dlook_eq_some_mem hv) (by decide)
    have hlen : ¬ ((stripFiltered ("embedding_".toList) kvs).length = 0) := fun hq =>
      List.ne_nil_of_mem hmem (List.length_eq_zero.mp hq)
    have hkeys : ∀ q ∈ stripFiltered ("embedding_".toList) kvs,
        q.1 = ("provider".toList : Key) := by
      intro q hq
      unfold stripFiltered at hq
      obtain ⟨p, hpq, rfl⟩ := List.mem_map.mp hq
      obtain ⟨hpm, hpf⟩ := List.mem_filter.mp hpq
      have he := honly p hpm hpf
      show p.1.drop (("embedding_".toList : Key).length) = _
      rw [he]
      decide
    have hlookup : ∀ tgt : Key, tgt ≠ ("provider".toList : Key) →
        dlook tgt (stripFiltered ("embedding_".toList) kvs) = none := by
      intro tgt hne
      refine dlook_eq_none_of_forall ?_
      intro q hq he
      exact hne (by rw [← he]; exact hkeys q hq)
    have hak : dget ("api_key".toList) (stripFiltered ("embedding_".toList) kvs) = .vnone := by
      unfold dget; rw [hlookup _ (by decide)]; rfl
    have hmn : dget ("model_name".toList) (stripFiltered ("embedding_".toList) kvs) = .vnone := by
      unfold dget; rw [hlookup _ (by decide)]; rfl
    have hid : dget ("aws_access_key_id".toList)
        (stripFiltered ("embedding_".toList) kvs) = .vnone := by
      unfold dget; rw [hlookup _ (by decide)]; rfl
    have hsk : dget ("aws_secret_access_key".toList)
        (stripFiltered ("embedding_".toList) kvs) = .vnone := by
      unfold dget; rw [hlookup _ (by decide)]; rfl
    have har : (dlook ("aws_region".toList)
        (stripFiltered ("embedding_".toList) kvs)).getD (.vstr "us-west-2") =
          .vstr "us-west-2" := by
      rw [hlookup _ (by decide)]; rfl
    simp only [CliEmbeddingConfig.from_dict]
    rw [if_neg hlen, if_neg (by rw [hp, htr]; simp)]
    unfold EmbeddingConfig.build
    rw [hp, hak, hmn, hid, hsk, har]

/-- Witness for C6: a mapping holding only `embedding_provider` yields the
record with the provider set and every other field defaulted; the witness
also exercises the if-and-only-if at a providerless mapping. -/
theorem embedding_active_iff_provider_witness :
    CliEmbeddingConfig.from_dict
        [(("embedding_provider".toList : Key), Value.vstr "openai")] =
      some ⟨Value.vstr "openai", .vnone, .vnone, .vnone, .vnone, .vstr "us-west-2"⟩ ∧
    (CliEmbeddingConfig.from_dict
        [(("embedding_api_key".toList : Key), Value.vstr "sk-123")]).isSome =
      (dget ("embedding_provider".toList)
        [(("embedding_api_key".toList : Key), Value.vstr "sk-123")]).truthy :=
  ⟨by
    have h := (embedding_active_iff_provider
        [(("embedding_provider".toList : Key), Value.vstr "openai")]).2
      (by decide) (by decide)
    rw [h]
    decide,
   (embedding_active_iff_provider _).1⟩

theorem addOptsLoop_ok (cn : String) (prm : Param) :
    ∀ (opts existing : List String) (acc : List Param),
      opts.Nodup → (∀ o ∈ opts, o ∉ existing) →
      CliMixin.addOptsLoop cn prm opts existing acc =
        .ok (existing ++ opts, acc ++ opts.map (fun _ => prm)) := by
  intro opts
  induction opts with
  | nil => intro existing acc _ _; simp [CliMixin.addOptsLoop]
  | cons o rest ih =>
    intro existing acc hnd hdisj
    have ho : o ∉ existing := hdisj o (.head _)
    simp only [CliMixin.addOptsLoop, if_neg ho]
    rw [ih (existing ++ [o]) (acc ++ [prm]) (List.nodup_cons.mp hnd).2 ?_]
    · simp
    · intro x hx
      simp only [List.mem_append, List.mem_singleton]
      rintro (hxe | hxo)
      · exact hdisj x (.tail _ hx) hxe
      · exact (List.nodup_cons.mp hnd).1 (hxo ▸ hx)

theorem addOptsLoop_error (cn : String) (prm : Param) :
    ∀ (opts existing : List String) (acc : List Param),
      ¬(opts.Nodup ∧ ∀ o ∈ opts, o ∉ existing) →
      ∃ o ∈ opts, CliMixin.addOptsLoop cn prm opts existing acc =
        .error (dupMessage o cn) := by
  intro opts
  induction opts with
  | nil => intro existing acc h; exact absurd ⟨List.nodup_nil, by simp⟩ h
  | cons o rest ih =>
    intro existing acc h
    by_cases ho : o ∈ existing
    · exact ⟨o, .head _, by simp [CliMixin.addOptsLoop, if_pos ho]⟩
    · have hrest : ¬(rest.Nodup ∧ ∀ x ∈ rest, x ∉ existing ++ [o]) := by
        rintro ⟨hn, hd⟩
        apply h
        constructor
        · rw [List.nodup_cons]
          exact ⟨fun hmem => (hd o hmem) (by simp), hn⟩
        · intro x hx
          rcases List.mem_cons.mp hx with rfl | hx2
          · exact ho
          · intro hxe
            exact hd x hx2 (List.mem_append.mpr (Or.inl hxe))
      obtain ⟨x, hx, hres⟩ := ih (existing ++ [o]) (acc ++ [prm]) hrest
      exact ⟨x, .tail _ hx, by simp only [CliMixin.addOptsLoop, if_neg ho]; exact hres⟩

theorem addParamsLoop_ok (cn : String) :
    ∀ (ps : List Param) (existing : List String) (acc : List Param),
      FreshOpts existing ps →
      ∃ r, CliMixin.addParamsLoop cn ps existing acc = .ok r := by
  intro ps
  induction ps with
  | nil => intro existing acc _; exact ⟨acc, rfl⟩
  | cons prm rest ih =>
    rintro existing acc ⟨hnd, hdisj⟩
    have hsplit := List.nodup_append.mp (by simpa [allOpts] using hnd)
    have hok := addOptsLoop_ok cn prm prm.opts existing acc hsplit.1
      (fun o ho => hdisj o (by simp [allOpts, ho]))
    simp only [CliMixin.addParamsLoop, hok]
    apply ih
    refine ⟨hsplit.2.1, ?_⟩
    intro o ho
    simp only [List.mem_append]
    rintro (he | hp2)
    · exact hdisj o (by simp [allOpts, ho]) he
    · exact hsplit.2.2 hp2 ho

theorem addParamsLoop_error (cn : String) :
    ∀ (ps : List Param) (existing : List String) (acc : List Param),
      ¬ FreshOpts existing ps →
      ∃ o ∈ allOpts ps,
        CliMixin.addParamsLoop cn ps existing acc = .error (dupMessage o cn) := by
  intro ps
  induction ps with
  | nil =>
    intro existing acc h
    exact absurd ⟨by simp [allOpts], by simp [allOpts]⟩ h
  | cons prm rest ih =>
    intro existing acc h
    by_cases hc : prm.opts.Nodup ∧ ∀ o ∈ prm.opts, o ∉ existing
    · have hok := addOptsLoop_ok cn prm prm.opts existing acc hc.1 hc.2
      have hrest : ¬ FreshOpts (existing ++ prm.opts) rest := by
        rintro ⟨hn2, hd2⟩
        apply h
        constructor
        · simp only [allOpts]
          rw [List.nodup_append]
          refine ⟨hc.1, hn2, ?_⟩
          intro a ha hb
          exact hd2 a hb (List.mem_append.mpr (Or.inr ha))
        · intro o ho
          simp only [allOpts, List.mem_append] at ho
          rcases ho with ho | ho
          · exact hc.2 o ho
          · intro he
            exact hd2 o ho (List.mem_append.mpr (Or.inl he))
      obtain ⟨x, hx, hres⟩ := ih (existing ++ prm.opts)
        (acc ++ prm.opts.map (fun _ => prm)) hrest
      refine ⟨x, by simp [allOpts, hx], ?_⟩
      simp only [CliMixin.addParamsLoop, hok]
      exact hres
    · obtain ⟨x, hx, hres⟩ := addOptsLoop_error cn prm prm.opts existing acc hc
      refine ⟨x, by simp [allOpts, hx], ?_⟩
      simp only [CliMixin.addParamsLoop, hres]

/-- C4: option registration: `CliMixin.add_params` succeeds exactly when
the new options' flag spellings are pairwise distinct and disjoint from
everything already registered on the command; on any collision it fails
with the `ValueError` naming the colliding flag and the command. -/
theorem add_params_flag_collision (cmd : Command) (ps : List Param) :
    ((∃ cmd2, CliMixin.add_params cmd ps = .ok cmd2) ↔
      FreshOpts (allOpts cmd.params) ps) ∧
    (¬ FreshOpts (allOpts cmd.params) ps →
     ∃ o ∈ allOpts ps,
       CliMixin.add_params cmd ps = .error (dupMessage o cmd.name)) := by
  constructor
  · constructor
    · rintro ⟨cmd2, h2⟩
      by_contra hnf
      obtain ⟨o, -, he⟩ := addParamsLoop_error cmd.name ps (allOpts cmd.params) cmd.params hnf
      unfold CliMixin.add_params at h2
      rw [he] at h2
      simp [Except.map] at h2
    · intro hf
      obtain ⟨r, hr⟩ := addParamsLoop_ok cmd.name ps (allOpts cmd.params) cmd.params hf
      exact ⟨_, by unfold CliMixin.add_params; rw [hr]; rfl⟩
  · intro hnf
    obtain ⟨o, ho, he⟩ := addParamsLoop_error cmd.name ps (allOpts cmd.params) cmd.params hnf
    exact ⟨o, ho, by unfold CliMixin.add_params; rw [he]; rfl⟩

/-- Witness for C4: a disjoint option registers fine on a command that
already has `--output-dir`; re-registering `--output-dir` fails with the
message naming the flag and the command. -/
theorem add_params_flag_collision_witness :
    (∃ cmd2, CliMixin.add_params ⟨"ingest", [⟨["--output-dir"]⟩]⟩
        [⟨["--max-retries"]⟩] = .ok cmd2) ∧
    (∃ o ∈ allOpts [(⟨["--output-dir"]⟩ : Param)],
       CliMixin.add_params ⟨"ingest", [⟨["--output-dir"]⟩]⟩ [⟨["--output-dir"]⟩] =
         .error (dupMessage o "ingest")) :=
  ⟨(add_params_flag_collision _ _).1.mpr (by decide),
   (add_params_flag_collision _ _).2 (by decide)⟩

/-- The flag names the chunking options register (`get_cli_options` of
`CliChunkingConfig`), as they appear in the flat flag mapping. -/
def chunkingFlagKeys : List Key :=
  ["chunk_elements".toList, "chunking_strategy".toList,
   "chunk_multipage_sections".toList, "chunk_combine_text_under_n_chars".toList,
   "chunk_new_after_n_chars".toList, "chunk_max_characters".toList,
   "chunk_overlap".toList, "chunk_overlap_all".toList]

/-- `kvs` is a raw flag mapping as the CLI produces it: its keys are
pairwise distinct (it is a dict), and every `chunk_`-prefixed key is one of
the registered chunking flags. -/
def IsRawFlagMapping (kvs : PyDict) : Prop :=
  (kvs.map Prod.fst).Nodup ∧
  ∀ p ∈ kvs, startsWith ("chunk_".toList) p.1 = true → p.1 ∈ chunkingFlagKeys

instance (kvs : PyDict) : Decidable (IsRawFlagMapping kvs) :=
  inferInstanceAs (Decidable (_ ∧ _))

/-- C2: chunking strategy precedence: on a raw flag mapping with at least
one of `chunk_elements` / `chunking_strategy` set, `from_dict` yields a
merged field set whose `chunking_strategy` entry is the `chunking_strategy`
flag value when that flag is set (even if `chunk_elements` is also set) and
`by_title` when only the legacy flag is set; every remaining
`chunk_`-prefixed flag is stripped of the prefix (`len("chunk_") = 6`
characters) and merged with its value. -/
theorem chunking_strategy_precedence (kvs : PyDict)
    (hmap : IsRawFlagMapping kvs)
    (hset : (dget ("chunk_elements".toList) kvs).truthy = true ∨
            (dget ("chunking_strategy".toList) kvs).truthy = true) :
    ∃ d, CliChunkingConfig.from_dict kvs = some d ∧
      dget ("chunking_strategy".toList) d =
        (if (dget ("chunking_strategy".toList) kvs).truthy then
            dget ("chunking_strategy".toList) kvs
          else Value.vstr "by_title") ∧
      (∀ k v, (k, v) ∈ kvs → startsWith ("chunk_".toList) k = true →
        k ≠ ("chunk_elements".toList : Key) →
        dget (k.drop (("chunk_".toList : Key).length)) d = v) := by
  have h' : ¬ ((dget ("chunk_elements".toList) kvs).truthy = false ∧
      (dget ("chunking_strategy".toList) kvs).truthy = false) := by
    rintro ⟨h1, h2⟩
    rcases hset with h | h
    · rw [h1] at h; exact Bool.noConfusion h
    · rw [h2] at h; exact Bool.noConfusion h
  have hstrat : (if (dget ("chunking_strategy".toList) kvs).truthy then
        [(("chunking_strategy".toList : Key), dget ("chunking_strategy".toList) kvs)]
      else if (dget ("chunk_elements".toList) kvs).truthy then
        [(("chunking_strategy".toList : Key), Value.vstr "by_title")]
      else []) =
      [(("chunking_strategy".toList : Key),
        if (dget ("chunking_strategy".toList) kvs).truthy then
          dget ("chunking_strategy".toList) kvs
        else Value.vstr "by_title")] := by
    by_cases hcs : (dget ("chunking_strategy".toList) kvs).truthy
    · rw [if_pos hcs, if_pos hcs]
    · rcases hset with hce | hcs2
      · rw [if_neg hcs, if_pos hce, if_neg hcs]
      · exact absurd hcs2 hcs
  have hinjflags : ∀ x ∈ chunkingFlagKeys, ∀ y ∈ chunkingFlagKeys,
      x.drop (("chunk_".toList : Key).length) = y.drop (("chunk_".toList : Key).length) →
      x = y := by decide
  have hnocs : ∀ x ∈ chunkingFlagKeys,
      ¬ (x.drop (("chunk_".toList : Key).length) = ("chunking_strategy".toList : Key)) := by
    decide
  simp only [CliChunkingConfig.from_dict]
  rw [if_neg h', hstrat, List.singleton_append]
  set rest := stripFiltered ("chunk_".toList)
      (removeKey ("chunking_strategy".toList) (removeKey ("chunk_elements".toList) kvs))
    with hrestdef
  have hrestkeys : ∀ q ∈ rest, ∃ x, x ∈ chunkingFlagKeys ∧
      startsWith ("chunk_".toList) x = true ∧
      q.1 = x.drop (("chunk_".toList : Key).length) ∧ (x, q.2) ∈ kvs := by
    intro q hq
    rw [hrestdef] at hq
    unfold stripFiltered at hq
    obtain ⟨p, hpf, rfl⟩ := List.mem_map.mp hq
    obtain ⟨hpo, hpref⟩ := List.mem_filter.mp hpf
    have hpkvs : p ∈ kvs := by
      unfold removeKey at hpo
      exact List.mem_of_mem_filter (List.mem_of_mem_filter hpo)
    exact ⟨p.1, hmap.2 p hpkvs hpref, hpref, rfl, by rw [Prod.mk.eta]; exact hpkvs⟩
  have hndrest : (rest.map Prod.fst).Nodup := by
    rw [hrestdef]
    unfold stripFiltered
    rw [List.map_map]
    have heq : (Prod.fst ∘ fun p : Key × Value =>
        (p.1.drop (("chunk_".toList : Key).length), p.2)) =
        (fun x : Key => x.drop (("chunk_".toList : Key).length)) ∘ Prod.fst := rfl
    rw [heq, ← List.map_map]
    apply List.Nodup.map_on
    · intro x hx y hy hxy
      obtain ⟨p, hp, rfl⟩ := List.mem_map.mp hx
      obtain ⟨q, hq, rfl⟩ := List.mem_map.mp hy
      obtain ⟨hpo, hppref⟩ := List.mem_filter.mp hp
      obtain ⟨hqo, hqpref⟩ := List.mem_filter.mp hq
      have hpk : p ∈ kvs := by
        unfold removeKey at hpo
        exact List.mem_of_mem_filter (List.mem_of_mem_filter hpo)
      have hqk : q ∈ kvs := by
        unfold removeKey at hqo
        exact List.mem_of_mem_filter (List.mem_of_mem_filter hqo)
      exact hinjflags p.1 (hmap.2 p hpk hppref) q.1 (hmap.2 q hqk hqpref) hxy
    · refine List.Nodup.sublist (List.Sublist.map Prod.fst ?_) hmap.1
      unfold removeKey
      exact ((List.filter_sublist _).trans (List.filter_sublist _)).trans
        (List.filter_sublist _)
  have hcsnotin : ("chunking_strategy".toList : Key) ∉ rest.map Prod.fst := by
    intro hc
    obtain ⟨q, hq, hq1⟩ := List.mem_map.mp hc
    obtain ⟨x, hxf, -, hqx, -⟩ := hrestkeys q hq
    rw [hqx] at hq1
    exact hnocs x hxf hq1
  have hnodup : ((((("chunking_strategy".toList : Key),
      (if (dget ("chunking_strategy".toList) kvs).truthy then
        dget ("chunking_strategy".toList) kvs
       else Value.vstr "by_title")) : Key × Value) :: rest).map Prod.fst).Nodup := by
    rw [List.map_cons, List.nodup_cons]
    exact ⟨hcsnotin, hndrest⟩
  rw [pyDict_nodup_id hnodup, if_neg (by simp)]
  refine ⟨_, rfl, ?_, ?_⟩
  · unfold dget
    simp [dlook]
  · intro k v hkv hpref hne
    have hkflags : k ∈ chunkingFlagKeys := hmap.2 (k, v) hkv hpref
    have hkcs : k ≠ ("chunking_strategy".toList : Key) := by
      intro he
      have hfa : startsWith ("chunk_".toList) ("chunking_strategy".toList : Key) = false := by
        decide
      rw [he, hfa] at hpref
      exact Bool.noConfusion hpref
    have hopt : (k, v) ∈ removeKey ("chunking_strategy".toList)
        (removeKey ("chunk_elements".toList) kvs) := by
      unfold removeKey
      refine List.mem_filter.mpr ⟨List.mem_filter.mpr ⟨hkv, ?_⟩, ?_⟩
      · simpa using hne
      · simpa using hkcs
    have hmemrest : (k.drop (("chunk_".toList : Key).length), v) ∈ rest := by
      rw [hrestdef]
      exact mem_stripFiltered _ hopt hpref
    have hheadne : ¬ (("chunking_strategy".toList : Key) =
        k.drop (("chunk_".toList : Key).length)) := by
      intro he
      exact hnocs k hkflags he.symm
    unfold dget
    simp only [dlook, if_neg hheadne]
    rw [dlook_mem_nodup hndrest hmemrest]
    rfl

/-- Witness for C2: with both flags set (`chunk_elements: True`,
`chunking_strategy: "basic"`) and a tuning flag, the merged set carries
strategy `basic` (the newer flag wins) and the stripped tuning entry. -/
theorem chunking_strategy_precedence_witness :
    ∃ d, CliChunkingConfig.from_dict
        [(("chunk_elements".toList : Key), Value.vbool true),
         (("chunking_strategy".toList : Key), Value.vstr "basic"),
         (("chunk_max_characters".toList : Key), Value.vint 500)] = some d ∧
      dget ("chunking_strategy".toList) d = Value.vstr "basic" ∧
      dget ("max_characters".toList) d = Value.vint 500 := by
  obtain ⟨d, hd, hs, hm⟩ := chunking_strategy_precedence
    [(("chunk_elements".toList : Key), Value.vbool true),
     (("chunking_strategy".toList : Key), Value.vstr "basic"),
     (("chunk_max_characters".toList : Key), Value.vint 500)]
    (by decide) (Or.inl (by decide))
  refine ⟨d, hd, ?_, ?_⟩
  · rw [hs]
    decide
  · have hm2 := hm ("chunk_max_characters".toList) (Value.vint 500)
      (by decide) (by decide) (by decide)
    have hdrop : (List.drop (("chunk_".toList : Key).length)
        ("chunk_max_characters".toList)) = ("max_characters".toList : Key) := by decide
    rw [hdrop] at hm2
    exact hm2

/-- C9 counterexample: with the two-character delimiter `--`, the input
`"a- --b"` converts to `["a-", "b"]`, but joining with `--` gives
`"a---b"`, which re-converts to `["a", "-b"]`: trimming exposed a new
delimiter occurrence at the element boundary, so split-and-trim does not
round-trip for every configured delimiter. -/
theorem delimited_round_trip_counterexample :
    DelimitedString.convert ['-', '-'] [] ("a- --b".toList) =
      .ok [['a', '-'], ['b']] ∧
    DelimitedString.convert ['-', '-'] []
      (List.intercalate ['-', '-'] [['a', '-'], ['b']]) = .ok [['a'], ['-', 'b']] ∧
    ([['a'], ['-', 'b']] : List (List Char)) ≠ [['a', '-'], ['b']] :=
  ⟨rfl, rfl, by decide⟩

theorem dropWhile_length_le (p : Char → Bool) : ∀ l : List Char,
    (l.dropWhile p).length ≤ l.length := by
  intro l
  induction l with
  | nil => exact Nat.le_refl _
  | cons a rest ih =>
    rw [List.dropWhile_cons]
    by_cases hpa : p a = true
    · rw [if_pos hpa]
      exact Nat.le_succ_of_le ih
    · rw [if_neg hpa]

theorem dropWhile_idem (p : Char → Bool) : ∀ l : List Char,
    (l.dropWhile p).dropWhile p = l.dropWhile p := by
  intro l
  induction l with
  | nil => rfl
  | cons a rest ih =>
    by_cases hpa : p a = true
    · rw [List.dropWhile_cons, if_pos hpa]
      exact ih
    · rw [List.dropWhile_cons, if_neg hpa, List.dropWhile_cons, if_neg hpa]

theorem dropWhile_decomp (p : Char → Bool) : ∀ l : List Char,
    ∃ t, l = t ++ l.dropWhile p := by
  intro l
  induction l with
  | nil => exact ⟨[], rfl⟩
  | cons a rest ih =>
    by_cases hpa : p a = true
    · obtain ⟨t, ht⟩ := ih
      refine ⟨a :: t, ?_⟩
      rw [List.dropWhile_cons, if_pos hpa, List.cons_append, ← ht]
    · refine ⟨[], ?_⟩
      rw [List.dropWhile_cons, if_neg hpa]
      rfl

theorem rstrip_idem (l : List Char) : rstrip (rstrip l) = rstrip l := by
  unfold rstrip
  rw [List.reverse_reverse, dropWhile_idem]

theorem lstrip_rstrip {m : List Char} (hm : lstrip m = m) :
    lstrip (rstrip m) = rstrip m := by
  obtain ⟨t, ht⟩ := dropWhile_decomp pySpace m.reverse
  have hm2 : m = rstrip m ++ t.reverse := by
    unfold rstrip
    conv_lhs => rw [← List.reverse_reverse m, ht]
    rw [List.reverse_append]
  cases hr : rstrip m with
  | nil => rfl
  | cons b bs =>
    have hmb : m = b :: (bs ++ t.reverse) := by
      conv_lhs => rw [hm2, hr]
      rfl
    have hb : pySpace b = false := by
      by_contra hc
      have hb2 : pySpace b = true := by simpa using hc
      rw [hmb] at hm
      unfold lstrip at hm
      rw [List.dropWhile_cons, if_pos hb2] at hm
      have hlen := congrArg List.length hm
      have hle := dropWhile_length_le pySpace (bs ++ t.reverse)
      simp at hlen hle
      omega
    unfold lstrip
    rw [List.dropWhile_cons, if_neg (by simp [hb])]

theorem pyStrip_idem (l : List Char) : pyStrip (pyStrip l) = pyStrip l := by
  unfold pyStrip
  have h1 : lstrip (rstrip (lstrip l)) = rstrip (lstrip l) :=
    lstrip_rstrip (dropWhile_idem pySpace l)
  rw [h1, rstrip_idem]

theorem not_mem_dropWhile {c : Char} {p : Char → Bool} : ∀ {l : List Char},
    c ∉ l → c ∉ l.dropWhile p := by
  intro l
  induction l with
  | nil => intro h; simp
  | cons a rest ih =>
    intro h
    rw [List.dropWhile_cons]
    by_cases hpa : p a = true
    · rw [if_pos hpa]
      exact ih (fun hm => h (List.mem_cons_of_mem _ hm))
    · rw [if_neg hpa]
      exact h

theorem not_mem_pyStrip {c : Char} {l : List Char} (h : c ∉ l) : c ∉ pyStrip l := by
  unfold pyStrip rstrip lstrip
  have h1 : c ∉ l.dropWhile pySpace := not_mem_dropWhile h
  have h2 : c ∉ (l.dropWhile pySpace).reverse := by simpa using h1
  have h3 : c ∉ ((l.dropWhile pySpace).reverse).dropWhile pySpace := not_mem_dropWhile h2
  simpa using h3

theorem splitParts_single (c : Char) : ∀ (n : Nat) (s : List Char), s.length < n →
    splitParts [c] n s = List.splitOn c s := by
  intro n
  induction n with
  | zero => intro s h; exact absurd h (Nat.not_lt_zero _)
  | succ n ih =>
    intro s hlen
    cases s with
    | nil => rw [List.splitOn]; rw [List.splitOnP_nil]; rfl
    | cons a rest =>
      have hlen2 : rest.length < n := by
        simpa [Nat.succ_lt_succ_iff] using hlen
      by_cases hac : c = a
      · have hsw : startsWith [c] (a :: rest) = true := by
          simp [startsWith, hac]
        simp only [splitParts, hsw, if_true]
        rw [show ([c].length - 1) = 0 from rfl, List.drop_zero, ih rest hlen2]
        simp only [List.splitOn]
        rw [List.splitOnP_cons, if_pos (by simp [hac.symm])]
      · have hsw : startsWith [c] (a :: rest) = false := by
          simp [startsWith]
          intro h
          exact absurd h hac
        simp only [splitParts, hsw, Bool.false_eq_true, if_false]
        rw [ih rest hlen2]
        simp only [List.splitOn]
        rw [List.splitOnP_cons, if_neg (by simp; intro h; exact absurd h.symm hac)]
        cases hsp : List.splitOnP (fun x => x == c) rest with
        | nil => exact absurd hsp (List.splitOnP_ne_nil _ rest)
        | cons q qs => rw [List.modifyHead_cons]

theorem splitOn_not_mem (c : Char) : ∀ (s : List Char), ∀ p ∈ List.splitOn c s, c ∉ p := by
  intro s
  induction s with
  | nil =>
    intro p hp
    rw [List.splitOn, List.splitOnP_nil] at hp
    rw [List.mem_singleton] at hp
    subst hp
    simp
  | cons a rest ih =>
    intro p hp
    rw [List.splitOn, List.splitOnP_cons] at hp
    by_cases hac : (a == c) = true
    · rw [if_pos hac] at hp
      rcases List.mem_cons.mp hp with rfl | hp2
      · simp
      · exact ih p hp2
    · rw [if_neg hac] at hp
      cases hsp : List.splitOnP (fun x => x == c) rest with
      | nil => exact absurd hsp (List.splitOnP_ne_nil _ rest)
      | cons q qs =>
        rw [hsp, List.modifyHead_cons] at hp
        rcases List.mem_cons.mp hp with rfl | hp2
        · intro hc
          rcases List.mem_cons.mp hc with rfl | hc2
          · exact hac (by simp)
          · exact ih q (by rw [List.splitOn, hsp]; exact List.mem_cons_self _ _) hc2
        · exact ih p (by rw [List.splitOn, hsp]; exact List.mem_cons_of_mem _ hp2)

/-- C9 (amended): for the single-character delimiters this file configures
(`,` for the comma-separated flags, `+` for `--ocr-languages`),
split-and-trim round-trips: joining the converted list with the delimiter
and re-converting yields the same list.  (For multi-character delimiters
the round-trip can fail, per the counterexample.) -/
theorem delimited_round_trip_single (c : Char) (s : List Char) :
    ∃ L, DelimitedString.convert [c] [] s = .ok L ∧
      DelimitedString.convert [c] [] (List.intercalate [c] L) = .ok L := by
  have hconv : ∀ t : List Char, DelimitedString.convert [c] [] t =
      .ok ((pySplit [c] t).map pyStrip) := by
    intro t
    simp only [DelimitedString.convert]
    rw [if_neg (by simp), if_pos (show (([] : List (List Char)).length = 0) from rfl)]
  have hsplit : ∀ t : List Char, pySplit [c] t = List.splitOn c t := fun t =>
    splitParts_single c (t.length + 1) t (Nat.lt_succ_self _)
  refine ⟨(List.splitOn c s).map pyStrip, ?_, ?_⟩
  · rw [hconv, hsplit]
  · rw [hconv, hsplit]
    have hnotmem : ∀ l ∈ (List.splitOn c s).map pyStrip, c ∉ l := by
      intro l hl
      obtain ⟨q, hq, rfl⟩ := List.mem_map.mp hl
      exact not_mem_pyStrip (splitOn_not_mem c s q hq)
    have hLne : (List.splitOn c s).map pyStrip ≠ [] := by
      intro hc
      rw [List.map_eq_nil_iff] at hc
      exact List.splitOnP_ne_nil _ s (by rw [List.splitOn] at hc; exact hc)
    rw [List.splitOn_intercalate _ c hnotmem hLne, List.map_map]
    exact congrArg Except.ok (List.map_congr_left fun x _ => pyStrip_idem x)
